import Mathlib

/-!
Shallow embedding of the differentiable volume renderer in `src/nerf.ipynb`
(gtbook's simplified direct-voxel-grid radiance field): ray sampling,
trilinear voxel-grid interpolation, front-to-back alpha compositing, the
scene renderer pipeline and the orthographic ray factory.  Tensors over the
last (batch) axis are modelled as lists; per-channel vectors of width `d`
as `Fin d → ℝ`; the stochastic jitter drawn inside `sample_rays` is passed
in explicitly as the realized list of random scalars.
-/

namespace Nerf

noncomputable section

/-- WHITE background color, `torch.full((3,), 1.0)`. -/
def WHITE : Fin 3 → ℝ := fun _ => 1

/-- From the notebook: `sample_along_ray(t_values, origins, directions)`
returns `origins[..., None, :] + t_values[:, None] * directions[..., None, :]`,
modelled per ray: one 3D point per depth value. -/
def sample_along_ray (t_values : List ℝ) (origins directions : Fin 3 → ℝ) :
    List (Fin 3 → ℝ) :=
  t_values.map fun t => fun i => origins i + t * directions i

/-- Model of `torch.cumsum(density, dim=-1)`: inclusive prefix sums along the sample axis. -/
def cumsum : List ℝ → List ℝ
  | [] => []
  | d :: ds => d :: (cumsum ds).map (fun s => d + s)

/-- The local `alpha = 1 - torch.exp(-density)` of `render_along_ray`. -/
def alphas (density : List ℝ) : List ℝ :=
  density.map fun d => 1 - Real.exp (-d)

/-- The local `trans` of `render_along_ray` after the shift:
`torch.cat([torch.ones_like(density[..., :1]), torch.exp(-cumsum(density))[..., :-1]], dim=-1)`. -/
def transShifted (density : List ℝ) : List ℝ :=
  ((density.take 1).map fun _ => (1 : ℝ)) ++
    ((cumsum density).map fun s => Real.exp (-s)).dropLast

/-- The local `weights = alpha * trans` of `render_along_ray`. -/
def renderWeights (density : List ℝ) : List ℝ :=
  List.zipWith (· * ·) (alphas density) (transShifted density)

/-- From the notebook: `render_along_ray(density, rgb, background)` returns
`einsum('...i,...ij->...j', weights, rgb) + (1 - weights.sum()) * background`. -/
def render_along_ray (density : List ℝ) (rgb : List (Fin 3 → ℝ))
    (background : Fin 3 → ℝ) : Fin 3 → ℝ :=
  (List.zipWith (fun w c => w • c) (renderWeights density) rgb).sum +
    (1 - (renderWeights density).sum) • background

/-- From the notebook: `bracket(x, n)` with `x0 = floor(x).long()`,
`X0 = clamp(x0, 0, n-1)`, `X1 = clamp(x0+1, 0, n-1)` and the fractional
weight `clamp(x - x0, 0, 1)`. -/
def bracket (x : ℝ) (n : ℕ) : ℤ × ℤ × ℝ :=
  let x0 : ℤ := ⌊x⌋
  (min (max x0 0) ((n : ℤ) - 1), min (max (x0 + 1) 0) ((n : ℤ) - 1),
    min (max (x - (x0 : ℝ)) 0) 1)

/-- From the notebook: `interpolate(v0, v1, alpha) = v0 * (1 - alpha) + v1 * alpha`,
broadcast over the value channel. -/
def interpolate {d : ℕ} (v0 v1 : Fin d → ℝ) (alpha : ℝ) : Fin d → ℝ :=
  fun ch => v0 ch * (1 - alpha) + v1 ch * alpha

/-- A `VoxelGrid(shape, d)`: `shape` is the logical voxel resolution per axis;
the stored tensor has one more corner sample per axis (`storage_shape = shape + 1`),
so valid corner indices run over `0 .. shape`.  `grid` models the corner-value
tensor `self.grid` as a total function on integer indices (the forward pass only
reads clamped, in-range indices). -/
structure VoxelGrid (d : ℕ) where
  shape : Fin 3 → ℕ
  grid : ℤ → ℤ → ℤ → Fin d → ℝ

/-- The method `VoxelGrid.forward(P)`: trilinearly interpolate the grid at point `P`,
bracketing each axis against the corner count `self.grid.shape[axis] = shape + 1`,
then lerping along x, then y, then z — exactly the notebook's nesting. -/
def VoxelGrid.forward {d : ℕ} (g : VoxelGrid d) (P : Fin 3 → ℝ) : Fin d → ℝ :=
  let X := bracket (P 0) (g.shape 0 + 1)
  let Y := bracket (P 1) (g.shape 1 + 1)
  let Z := bracket (P 2) (g.shape 2 + 1)
  let y0z0 := interpolate (g.grid X.1 Y.1 Z.1) (g.grid X.2.1 Y.1 Z.1) X.2.2
  let y1z0 := interpolate (g.grid X.1 Y.2.1 Z.1) (g.grid X.2.1 Y.2.1 Z.1) X.2.2
  let y0z1 := interpolate (g.grid X.1 Y.1 Z.2.1) (g.grid X.2.1 Y.1 Z.2.1) X.2.2
  let y1z1 := interpolate (g.grid X.1 Y.2.1 Z.2.1) (g.grid X.2.1 Y.2.1 Z.2.1) X.2.2
  let z0 := interpolate y0z0 y1z0 Y.2.2
  let z1 := interpolate y0z1 y1z1 Y.2.2
  interpolate z0 z1 Z.2.2

/-- The notebook's `Config` dataclass with its default values. -/
structure Config where
  near : ℝ := 0.5
  far : ℝ := 3.5
  num_samples : ℕ := 64
  min_corner : Fin 3 → ℝ := fun _ => -1.0
  max_corner : Fin 3 → ℝ := fun _ => 1.0
  shape : Fin 3 → ℕ := fun _ => 16
  background : Fin 3 → ℝ := WHITE

/-- The default `Config()`. -/
def default_config : Config := {}

/-- Model of `torch.linspace(a, b, steps)`: `steps` evenly spaced points from `a` to `b`. -/
def linspace (a b : ℝ) (steps : ℕ) : List ℝ :=
  (List.range steps).map fun (k : ℕ) => a + (k : ℝ) * ((b - a) / ((steps : ℝ) - 1))

/-- The depth midpoints computed in `SimpleDVGO.__init__`:
`depths = linspace(near, far, num_samples + 1)` and
`t_values = 0.5 * (depths[1:] + depths[:-1])`. -/
def compute_t_values (near far : ℝ) (num_samples : ℕ) : List ℝ :=
  let depths := linspace near far (num_samples + 1)
  List.zipWith (fun x1 x0 => 0.5 * (x1 + x0)) (depths.drop 1) depths.dropLast

/-- The depth perturbation in `sample_rays`: during training the realized
random vector `(torch.rand(n) - 0.5) / n` is added elementwise to `t_values`;
in evaluation mode `t_values` is returned unchanged. -/
def perturbed_ts (t_values : List ℝ) (training : Bool) (random_scalar : List ℝ) :
    List ℝ :=
  if training then List.zipWith (fun t r => t + r) t_values random_scalar
  else t_values

/-- From the notebook: `sample_rays(t_values, rays, training)`: origins are the
first 3 components of each packed 6-vector ray, directions the last 3; the
(possibly perturbed) depths are shared by all rays of the batch. -/
def sample_rays (t_values : List ℝ) (rays : List (Fin 6 → ℝ)) (training : Bool)
    (random_scalar : List ℝ) : List (List (Fin 3 → ℝ)) :=
  rays.map fun r =>
    sample_along_ray (perturbed_ts t_values training random_scalar)
      (fun i => r (Fin.castAdd 3 i)) (fun i => r (Fin.addNat i 3))

/-- The state `SimpleDVGO.__init__` builds: depth midpoints, bounding box
corners, voxel resolution (as reals, for the rescale), the two grids and the
background color. -/
structure SimpleDVGO where
  t_values : List ℝ
  min : Fin 3 → ℝ
  max : Fin 3 → ℝ
  shape : Fin 3 → ℝ
  rgb_voxel_grid : VoxelGrid 3
  density_voxel_grid : VoxelGrid 1
  background : Fin 3 → ℝ

/-- Constructor `SimpleDVGO(config)` with the (randomly initialized) corner values of the
two grids passed in explicitly. -/
def SimpleDVGO.init (config : Config)
    (rgb_values : ℤ → ℤ → ℤ → Fin 3 → ℝ)
    (density_values : ℤ → ℤ → ℤ → Fin 1 → ℝ) : SimpleDVGO :=
  ⟨compute_t_values config.near config.far config.num_samples,
    config.min_corner, config.max_corner, fun i => (config.shape i : ℝ),
    ⟨config.shape, rgb_values⟩, ⟨config.shape, density_values⟩,
    config.background⟩

/-- The coordinate rescale in `SimpleDVGO.forward`:
`rescaled = self.shape * (samples - self.min) / (self.max - self.min)`. -/
def rescale (m : SimpleDVGO) (p : Fin 3 → ℝ) : Fin 3 → ℝ :=
  fun i => m.shape i * (p i - m.min i) / (m.max i - m.min i)

/-- The method `SimpleDVGO.forward(rays, training)`: sample, rescale, query the density
grid (squeezed, then `F.relu`), query the color grid (`clamp` to `[0,1]`),
and composite with `render_along_ray`. -/
def SimpleDVGO.forward (m : SimpleDVGO) (rays : List (Fin 6 → ℝ))
    (training : Bool) (random_scalar : List ℝ) : List (Fin 3 → ℝ) :=
  (sample_rays m.t_values rays training random_scalar).map fun pts =>
    render_along_ray
      ((pts.map (rescale m)).map fun q =>
        Max.max (m.density_voxel_grid.forward q 0) 0)
      ((pts.map (rescale m)).map fun q => fun ch =>
        Min.min (Max.max (m.rgb_voxel_grid.forward q ch) 0) 1)
      m.background

/-- The error raised by `create_rays`: `raise ValueError("Invalid face id")`. -/
inductive RenderError where
  | invalidFace
deriving DecidableEq

/-- From the notebook: `create_rays(config, face, off)`, the orthographic ray
factory.  One ray per pixel of the chosen bounding-box face, origin `off`
outside the box, direction the inward axis-aligned unit normal. -/
def create_rays (config : Config) (face : String) (off : ℝ) :
    Except RenderError (List (List (Fin 6 → ℝ))) :=
  let n := config.shape 0
  let m := config.shape 1
  let p := config.shape 2
  let get_x := fun (i : ℕ) =>
    config.min_corner 0 +
      ((i : ℝ) + 0.5) * ((config.max_corner 0 - config.min_corner 0) / n)
  let get_y := fun (j : ℕ) =>
    config.min_corner 1 +
      ((j : ℝ) + 0.5) * ((config.max_corner 1 - config.min_corner 1) / m)
  let get_z := fun (k : ℕ) =>
    config.min_corner 2 +
      ((k : ℝ) + 0.5) * ((config.max_corner 2 - config.min_corner 2) / p)
  if face = "x" then
    .ok ((List.range m).map fun j => (List.range p).map fun k =>
      ![config.min_corner 0 - off, get_y j, get_z k, 1.0, 0.0, 0.0])
  else if face = "-x" then
    .ok ((List.range m).map fun j => (List.range p).map fun k =>
      ![config.max_corner 0 + off, get_y j, get_z k, -1.0, 0.0, 0.0])
  else if face = "y" then
    .ok ((List.range n).map fun i => (List.range p).map fun k =>
      ![get_x i, config.min_corner 1 - off, get_z k, 0.0, 1.0, 0.0])
  else if face = "-y" then
    .ok ((List.range n).map fun i => (List.range p).map fun k =>
      ![get_x i, config.max_corner 1 + off, get_z k, 0.0, -1.0, 0.0])
  else if face = "z" then
    .ok ((List.range n).map fun i => (List.range m).map fun j =>
      ![get_x i, get_y j, config.min_corner 2 - off, 0.0, 0.0, 1.0])
  else if face = "-z" then
    .ok ((List.range n).map fun i => (List.range m).map fun j =>
      ![get_x i, get_y j, config.max_corner 2 + off, 0.0, 0.0, -1.0])
  else .error .invalidFace

/-- The index formula claimed by the spec for `bracket` (clamping to
`[0, n-1]` where `n` is the corner count minus one, i.e. the voxel count):
a spec-side definition, to be compared with `bracket` as the code calls it. -/
def bracketSpecC1 (x : ℝ) (cornerCount : ℕ) : ℤ × ℤ × ℝ :=
  let n : ℤ := (cornerCount : ℤ) - 1
  let x0 : ℤ := ⌊x⌋
  (min (max x0 0) (n - 1), min (max (x0 + 1) 0) (n - 1),
    min (max (x - (x0 : ℝ)) 0) 1)

/-- The spec's closed-form `lerp(a, b, t) = a*(1-t) + b*t`, per channel. -/
def lerpSpec {d : ℕ} (a b : Fin d → ℝ) (t : ℝ) : Fin d → ℝ :=
  fun ch => a ch * (1 - t) + b ch * t

/-- The spec's exact trilinear blend of one cell's eight corner values:
nested lerps first along x (four results), then y (two), then z (one). -/
def trilinearSpec {d : ℕ} (g : VoxelGrid d) (ix iy iz : ℕ) (a b c : ℝ) :
    Fin d → ℝ :=
  lerpSpec
    (lerpSpec (lerpSpec (g.grid ix iy iz) (g.grid (ix + 1) iy iz) a)
      (lerpSpec (g.grid ix (iy + 1) iz) (g.grid (ix + 1) (iy + 1) iz) a) b)
    (lerpSpec (lerpSpec (g.grid ix iy (iz + 1)) (g.grid (ix + 1) iy (iz + 1)) a)
      (lerpSpec (g.grid ix (iy + 1) (iz + 1)) (g.grid (ix + 1) (iy + 1) (iz + 1)) a) b)
    c

/-! ## Structural lemmas about the compositor -/

lemma interpolate_self {d : ℕ} (v : Fin d → ℝ) (t : ℝ) : interpolate v v t = v := by
  funext ch
  simp only [interpolate]
  ring

lemma interpolate_zero {d : ℕ} (v0 v1 : Fin d → ℝ) : interpolate v0 v1 0 = v0 := by
  funext ch
  simp [interpolate]

lemma cumsum_length (l : List ℝ) : (cumsum l).length = l.length := by
  induction l with
  | nil => rfl
  | cons d l ih => simp [cumsum, ih]

lemma zipWith_mul_map (e : ℝ) : ∀ (A T : List ℝ),
    List.zipWith (· * ·) A (T.map fun t => e * t) =
      (List.zipWith (· * ·) A T).map fun w => e * w := by
  intro A
  induction A with
  | nil => intro T; simp
  | cons a A ih =>
    intro T
    cases T with
    | nil => simp
    | cons t T => simp [ih, mul_left_comm]

lemma zipWith_dropLast_right (f : ℝ → ℝ → ℝ) : ∀ (A M : List ℝ),
    A.length < M.length → List.zipWith f A M.dropLast = List.zipWith f A M := by
  intro A
  induction A with
  | nil => intro M h; simp
  | cons a A ih =>
    intro M h
    match M with
    | [] => simp at h
    | [m] => simp at h
    | m :: m' :: M' =>
      have h' : A.length < (m' :: M').length := by
        simp at h ⊢
        omega
      rw [List.dropLast_cons₂, List.zipWith_cons_cons, List.zipWith_cons_cons, ih _ h']

/-- The weights may be computed against the unshortened shifted
transmittances `1 :: exp(-cumsum)`: `zipWith` already truncates to the
density length, so the source's `[..., :-1]` slice drops only an unused tail
element. -/
lemma renderWeights_eq (ds : List ℝ) :
    renderWeights ds = List.zipWith (· * ·) (alphas ds)
      ((1 : ℝ) :: (cumsum ds).map fun s => Real.exp (-s)) := by
  cases ds with
  | nil => rfl
  | cons d ds' =>
    have ht : transShifted (d :: ds') =
        1 :: ((cumsum (d :: ds')).map fun s => Real.exp (-s)).dropLast := by
      simp [transShifted]
    rw [renderWeights, ht]
    rw [show alphas (d :: ds') = (1 - Real.exp (-d)) :: alphas ds' from rfl]
    rw [List.zipWith_cons_cons, List.zipWith_cons_cons]
    congr 1
    apply zipWith_dropLast_right
    simp [alphas, cumsum_length]

lemma transIncl_cons (d : ℝ) (ds : List ℝ) :
    (cumsum (d :: ds)).map (fun s => Real.exp (-s))
      = ((1 : ℝ) :: (cumsum ds).map fun s => Real.exp (-s)).map
          (fun t => Real.exp (-d) * t) := by
  simp only [cumsum, List.map_cons, List.map_map]
  congr 1
  · rw [mul_one]
  · congr 1
    funext s
    simp only [Function.comp_apply]
    rw [neg_add, Real.exp_add]

lemma renderWeights_nil : renderWeights [] = [] := rfl

lemma renderWeights_cons (d : ℝ) (ds : List ℝ) :
    renderWeights (d :: ds) =
      (1 - Real.exp (-d)) * 1 :: (renderWeights ds).map (fun w => Real.exp (-d) * w) := by
  rw [renderWeights_eq, renderWeights_eq]
  rw [show alphas (d :: ds) = (1 - Real.exp (-d)) :: alphas ds from rfl]
  rw [List.zipWith_cons_cons, transIncl_cons, zipWith_mul_map]

lemma sum_map_mul (r : ℝ) (l : List ℝ) : (l.map fun w => r * w).sum = r * l.sum := by
  induction l with
  | nil => simp
  | cons x l ih => simp [ih, mul_add]

/-- The per-sample weights telescope: their sum is `1 - exp(-Σ density)`. -/
lemma renderWeights_sum (ds : List ℝ) :
    (renderWeights ds).sum = 1 - Real.exp (-ds.sum) := by
  induction ds with
  | nil => simp [renderWeights_nil]
  | cons d ds ih =>
    rw [renderWeights_cons, List.sum_cons, sum_map_mul, ih, List.sum_cons, neg_add,
      Real.exp_add]
    ring

lemma renderWeights_length (ds : List ℝ) : (renderWeights ds).length = ds.length := by
  induction ds with
  | nil => rfl
  | cons d ds ih =>
    rw [renderWeights_cons]
    simp [ih]

/-- Each weight in closed form: `weight_i = alpha_i * T_i` with the exclusive
prefix transmittance `T_i = exp(-Σ_{j<i} density_j)`. -/
lemma renderWeights_sum_formula (ds : List ℝ) :
    (renderWeights ds).sum = ∑ i ∈ Finset.range ds.length,
      (1 - Real.exp (-(ds.getD i 0))) * Real.exp (-((ds.take i).sum)) := by
  induction ds with
  | nil => simp [renderWeights_nil]
  | cons d ds ih =>
    rw [renderWeights_cons, List.sum_cons, sum_map_mul, ih, List.length_cons,
      Finset.sum_range_succ']
    have hF : ∀ i : ℕ, (1 - Real.exp (-((d :: ds).getD (i + 1) 0))) *
        Real.exp (-(((d :: ds).take (i + 1)).sum))
        = Real.exp (-d) *
          ((1 - Real.exp (-(ds.getD i 0))) * Real.exp (-((ds.take i).sum))) := by
      intro i
      simp only [List.getD_cons_succ, List.take_succ_cons, List.sum_cons, neg_add,
        Real.exp_add]
      ring
    simp only [hF, ← Finset.mul_sum]
    simp only [List.getD_cons_zero, List.take_zero, List.sum_nil, neg_zero,
      Real.exp_zero]
    ring

lemma zipWith_smul_map (e : ℝ) : ∀ (W : List ℝ) (cs : List (Fin 3 → ℝ)),
    List.zipWith (fun w c => w • c) (W.map fun w => e * w) cs
      = (List.zipWith (fun w c => w • c) W cs).map fun v => e • v := by
  intro W
  induction W with
  | nil => intro cs; simp
  | cons w W ih =>
    intro cs
    cases cs with
    | nil => simp
    | cons c cs => simp [ih, mul_smul]

/-- The accumulated color in closed form: `Σ weight_i • color_i`. -/
lemma renderColor_sum_formula (ds : List ℝ) :
    ∀ cs : List (Fin 3 → ℝ),
      (List.zipWith (fun w c => w • c) (renderWeights ds) cs).sum
        = ∑ i ∈ Finset.range ds.length,
            ((1 - Real.exp (-(ds.getD i 0))) * Real.exp (-((ds.take i).sum))) •
              cs.getD i 0 := by
  induction ds with
  | nil => intro cs; simp [renderWeights_nil]
  | cons d ds ih =>
    intro cs
    cases cs with
    | nil => simp [renderWeights_cons]
    | cons c cs =>
      rw [renderWeights_cons, List.zipWith_cons_cons, List.sum_cons, zipWith_smul_map,
        ← List.smul_sum, ih, List.length_cons, Finset.sum_range_succ']
      have hF : ∀ i : ℕ, ((1 - Real.exp (-((d :: ds).getD (i + 1) 0))) *
          Real.exp (-(((d :: ds).take (i + 1)).sum))) • (c :: cs).getD (i + 1) 0
          = Real.exp (-d) • (((1 - Real.exp (-(ds.getD i 0))) *
              Real.exp (-((ds.take i).sum))) • cs.getD i 0) := by
        intro i
        simp only [List.getD_cons_succ, List.take_succ_cons, List.sum_cons, neg_add,
          Real.exp_add, smul_smul]
        congr 1
        ring
      simp only [hF, ← Finset.smul_sum]
      simp only [List.getD_cons_zero, List.take_zero, List.sum_nil, neg_zero,
        Real.exp_zero]
      rw [add_comm]

lemma renderWeights_nonneg (ds : List ℝ) (h : ∀ x ∈ ds, 0 ≤ x) :
    ∀ w ∈ renderWeights ds, 0 ≤ w := by
  induction ds with
  | nil => simp [renderWeights_nil]
  | cons d ds ih =>
    rw [renderWeights_cons]
    intro w hw
    rcases List.mem_cons.mp hw with hw | hw
    · have hd : 0 ≤ d := h d (List.mem_cons_self _ _)
      have he : Real.exp (-d) ≤ 1 := Real.exp_le_one_iff.mpr (by linarith)
      rw [hw]
      nlinarith
    · obtain ⟨w', hw', rfl⟩ := List.mem_map.mp hw
      exact mul_nonneg (Real.exp_pos _).le
        (ih (fun x hx => h x (List.mem_cons_of_mem _ hx)) w' hw')

lemma zipWith_smul_sum_bounds (ch : Fin 3) : ∀ (W : List ℝ) (cs : List (Fin 3 → ℝ)),
    (∀ w ∈ W, 0 ≤ w) → (∀ c ∈ cs, 0 ≤ c ch ∧ c ch ≤ 1) →
    0 ≤ (List.zipWith (fun w c => w • c) W cs).sum ch ∧
      (List.zipWith (fun w c => w • c) W cs).sum ch ≤ W.sum := by
  intro W
  induction W with
  | nil => intro cs _ _; simp
  | cons w W ih =>
    intro cs hW hcs
    cases cs with
    | nil =>
      refine ⟨by simp, ?_⟩
      have := List.sum_nonneg hW
      simpa using this
    | cons c cs =>
      obtain ⟨h1, h2⟩ := ih cs (fun x hx => hW x (List.mem_cons_of_mem _ hx))
        (fun x hx => hcs x (List.mem_cons_of_mem _ hx))
      have hw : 0 ≤ w := hW w (List.mem_cons_self _ _)
      have hc := hcs c (List.mem_cons_self _ _)
      rw [List.zipWith_cons_cons, List.sum_cons, List.sum_cons, Pi.add_apply,
        Pi.smul_apply, smul_eq_mul]
      exact ⟨add_nonneg (mul_nonneg hw hc.1) h1,
        add_le_add (mul_le_of_le_one_right hw hc.2) h2⟩

/-- Compositing with nonnegative densities, per-channel `[0,1]` colors and a
`[0,1]` background yields a channel value in `[0,1]`. -/
lemma render_along_ray_bounds (ds : List ℝ) (cs : List (Fin 3 → ℝ)) (bg : Fin 3 → ℝ)
    (hds : ∀ x ∈ ds, 0 ≤ x) (hcs : ∀ c ∈ cs, ∀ ch, 0 ≤ c ch ∧ c ch ≤ 1)
    (hbg : ∀ ch, 0 ≤ bg ch ∧ bg ch ≤ 1) (ch : Fin 3) :
    0 ≤ render_along_ray ds cs bg ch ∧ render_along_ray ds cs bg ch ≤ 1 := by
  have hW := renderWeights_nonneg ds hds
  obtain ⟨h1, h2⟩ := zipWith_smul_sum_bounds ch (renderWeights ds) cs hW
    (fun c hc => hcs c hc ch)
  have hsum : (renderWeights ds).sum = 1 - Real.exp (-ds.sum) := renderWeights_sum ds
  have hS : 0 ≤ ds.sum := List.sum_nonneg hds
  have hexp1 : Real.exp (-ds.sum) ≤ 1 := Real.exp_le_one_iff.mpr (by linarith)
  have hexp0 : 0 < Real.exp (-ds.sum) := Real.exp_pos _
  have hbgch := hbg ch
  rw [render_along_ray, Pi.add_apply, Pi.smul_apply, smul_eq_mul]
  constructor
  · have : 0 ≤ (1 - (renderWeights ds).sum) * bg ch :=
      mul_nonneg (by rw [hsum]; linarith) hbgch.1
    linarith
  · have hb : (1 - (renderWeights ds).sum) * bg ch ≤ 1 - (renderWeights ds).sum :=
      mul_le_of_le_one_right (by rw [hsum]; linarith) hbgch.2
    linarith

lemma insertIdx_sum {M : Type*} [AddCommMonoid M] :
    ∀ (k : ℕ) (a : M) (l : List M), k ≤ l.length →
      (List.insertIdx k a l).sum = a + l.sum := by
  intro k
  induction k with
  | zero =>
    intro a l _
    rw [List.insertIdx_zero, List.sum_cons]
  | succ k ih =>
    intro a l h
    cases l with
    | nil => simp at h
    | cons x xs =>
      rw [List.insertIdx_succ_cons, List.sum_cons, List.sum_cons,
        ih a xs (by simpa using h), add_left_comm]

lemma insertIdx_zipWith {α β γ : Type*} (f : α → β → γ) :
    ∀ (k : ℕ) (a : α) (b : β) (l1 : List α) (l2 : List β),
      k ≤ l1.length → k ≤ l2.length →
      List.zipWith f (List.insertIdx k a l1) (List.insertIdx k b l2)
        = List.insertIdx k (f a b) (List.zipWith f l1 l2) := by
  intro k
  induction k with
  | zero =>
    intro a b l1 l2 _ _
    rw [List.insertIdx_zero, List.insertIdx_zero, List.insertIdx_zero,
      List.zipWith_cons_cons]
  | succ k ih =>
    intro a b l1 l2 h1 h2
    cases l1 with
    | nil => simp at h1
    | cons x xs =>
      cases l2 with
      | nil => simp at h2
      | cons y ys =>
        rw [List.insertIdx_succ_cons, List.insertIdx_succ_cons, List.zipWith_cons_cons,
          List.zipWith_cons_cons, List.insertIdx_succ_cons,
          ih _ _ xs ys (by simpa using h1) (by simpa using h2)]

lemma insertIdx_map {α β : Type*} (f : α → β) :
    ∀ (k : ℕ) (a : α) (l : List α),
      (List.insertIdx k a l).map f = List.insertIdx k (f a) (l.map f) := by
  intro k
  induction k with
  | zero =>
    intro a l
    rw [List.insertIdx_zero, List.insertIdx_zero, List.map_cons]
  | succ k ih =>
    intro a l
    cases l with
    | nil => simp
    | cons x xs =>
      rw [List.insertIdx_succ_cons, List.map_cons, List.map_cons, ih,
        List.insertIdx_succ_cons]

/-- Inserting a zero density leaves the weight list with a zero weight
inserted at the same position: transmittances downstream are unchanged. -/
lemma renderWeights_insertIdx : ∀ (k : ℕ) (ds : List ℝ), k ≤ ds.length →
    renderWeights (List.insertIdx k 0 ds) = List.insertIdx k 0 (renderWeights ds) := by
  intro k
  induction k with
  | zero =>
    intro ds _
    rw [List.insertIdx_zero, List.insertIdx_zero, renderWeights_cons]
    simp
  | succ k ih =>
    intro ds h
    cases ds with
    | nil => simp at h
    | cons d ds =>
      rw [List.insertIdx_succ_cons, renderWeights_cons, renderWeights_cons,
        ih ds (by simpa using h), insertIdx_map, mul_zero, List.insertIdx_succ_cons]

/-! ## Bracketing lemmas for the voxel grid -/

/-- For a coordinate strictly inside cell `i` of an axis with `s` voxels
(`s + 1` corners), `bracket` returns the unclamped pair `(i, i+1)` and the
exact fractional offset. -/
lemma bracket_interior (x : ℝ) (i s : ℕ) (h1 : (i : ℝ) < x) (h2 : x < (i : ℝ) + 1)
    (hs : i < s) :
    bracket x (s + 1) = ((i : ℤ), ((i : ℤ) + 1, x - (i : ℝ))) := by
  have hfl : ⌊x⌋ = (i : ℤ) := by
    rw [Int.floor_eq_iff]
    constructor
    · push_cast
      linarith
    · push_cast
      linarith
  simp only [bracket, hfl, Prod.mk.injEq]
  refine ⟨?_, ?_, ?_⟩
  · push_cast
    omega
  · push_cast
    omega
  · push_cast
    rw [max_eq_left (by linarith), min_eq_left (by linarith)]

/-- Below the grid both clamped indices collapse to corner `0`. -/
lemma bracket_low (x : ℝ) (s : ℕ) (hx : x < 0) :
    (bracket x (s + 1)).1 = 0 ∧ (bracket x (s + 1)).2.1 = 0 := by
  have hfl : ⌊x⌋ < 0 := by
    rw [Int.floor_lt]
    exact_mod_cast hx
  constructor
  · simp only [bracket]
    push_cast
    omega
  · simp only [bracket]
    push_cast
    omega

/-- At coordinate `0` the low index is corner `0` and the fraction is `0`. -/
lemma bracket_at_zero (s : ℕ) :
    (bracket 0 (s + 1)).1 = 0 ∧ (bracket 0 (s + 1)).2.2 = 0 := by
  constructor
  · simp only [bracket, Int.floor_zero]
    push_cast
    omega
  · simp only [bracket, Int.floor_zero]
    norm_num

/-- Above the grid both clamped indices collapse to the last corner `s`. -/
lemma bracket_high (x : ℝ) (s : ℕ) (hx : (s : ℝ) < x) :
    (bracket x (s + 1)).1 = s ∧ (bracket x (s + 1)).2.1 = s := by
  have hfl : (s : ℤ) ≤ ⌊x⌋ := by
    rw [Int.le_floor]
    push_cast
    linarith
  constructor
  · simp only [bracket]
    push_cast
    omega
  · simp only [bracket]
    push_cast
    omega

/-- At coordinate `s` (the outer boundary) both indices are the last corner
`s` and the fraction is `0`. -/
lemma bracket_at_top (s : ℕ) :
    (bracket (s : ℝ) (s + 1)).1 = s ∧ (bracket (s : ℝ) (s + 1)).2.1 = s ∧
      (bracket (s : ℝ) (s + 1)).2.2 = 0 := by
  refine ⟨?_, ?_, ?_⟩
  · simp only [bracket, Int.floor_natCast]
    push_cast
    omega
  · simp only [bracket, Int.floor_natCast]
    push_cast
    omega
  · simp only [bracket, Int.floor_natCast]
    push_cast
    norm_num

/-! ## Depth midpoint lemmas -/

lemma linspace_length (a b : ℝ) (steps : ℕ) : (linspace a b steps).length = steps := by
  rw [linspace, List.length_map, List.length_range]

lemma compute_t_values_length (near far : ℝ) (ns : ℕ) :
    (compute_t_values near far ns).length = ns := by
  simp only [compute_t_values]
  rw [List.length_zipWith, List.length_drop, List.length_dropLast, linspace_length]
  omega

/-- Closed form of the configured depths: the `i`-th midpoint is
`near + (i + 1/2) * (far - near) / num_samples`. -/
lemma compute_t_values_getElem (near far : ℝ) (ns : ℕ) (i : ℕ)
    (h : i < (compute_t_values near far ns).length) :
    (compute_t_values near far ns)[i]
      = near + ((i : ℝ) + 0.5) * ((far - near) / ns) := by
  have hl : ∀ (j : ℕ) (hj : j < (linspace near far (ns + 1)).length),
      (linspace near far (ns + 1))[j]
        = near + (j : ℝ) * ((far - near) / (((ns + 1 : ℕ) : ℝ) - 1)) := by
    intro j hj
    simp only [linspace]
    rw [List.getElem_map, List.getElem_range]
  simp only [compute_t_values] at h ⊢
  rw [List.getElem_zipWith, List.getElem_drop, List.getElem_dropLast, hl, hl]
  push_cast
  ring

/-! ## Concrete instances used by witnesses -/

/-- All-zero color grid values. -/
def zero3 : ℤ → ℤ → ℤ → Fin 3 → ℝ := fun _ _ _ _ => 0

/-- All-zero density grid values. -/
def zero1 : ℤ → ℤ → ℤ → Fin 1 → ℝ := fun _ _ _ _ => 0

/-- The renderer built from the default config and zero grids. -/
def default_model : SimpleDVGO := SimpleDVGO.init default_config zero3 zero1

/-! ## Claim theorems -/

/-- C2: for every sequence of densities and colors and a background color,
the compositor returns `Σ_i alpha_i * T_i • color_i + (1 - Σ_i alpha_i * T_i) • background`
with `alpha_i = 1 - exp(-density_i)` and the exclusive-prefix transmittance
`T_i = exp(-Σ_{j<i} density_j)` (so `T_1 = exp(-0) = 1`): sample `i`'s own
density is excluded from its own transmittance. -/
theorem render_along_ray_closed_form (density : List ℝ) (rgb : List (Fin 3 → ℝ))
    (background : Fin 3 → ℝ) :
    render_along_ray density rgb background
      = (∑ i ∈ Finset.range density.length,
          ((1 - Real.exp (-(density.getD i 0))) * Real.exp (-((density.take i).sum))) •
            rgb.getD i 0)
        + (1 - ∑ i ∈ Finset.range density.length,
            (1 - Real.exp (-(density.getD i 0))) * Real.exp (-((density.take i).sum))) •
          background := by
  rw [render_along_ray, renderColor_sum_formula, renderWeights_sum_formula]

/-- C10: the sum of the per-sample weights `alpha_i * T_i` telescopes to
exactly `1 - exp(-Σ densities)`; hence for nonnegative densities the
accumulated weight lies in `[0, 1)` and the background coefficient
`1 - accumulated` lies in `(0, 1]`. -/
theorem renderWeights_telescope_and_bounds (ds : List ℝ) :
    (renderWeights ds).sum = 1 - Real.exp (-ds.sum) ∧
      ((∀ x ∈ ds, 0 ≤ x) →
        0 ≤ (renderWeights ds).sum ∧ (renderWeights ds).sum < 1 ∧
          0 < 1 - (renderWeights ds).sum ∧ 1 - (renderWeights ds).sum ≤ 1) := by
  refine ⟨renderWeights_sum ds, fun h => ?_⟩
  have hS : 0 ≤ ds.sum := List.sum_nonneg h
  have h1 : Real.exp (-ds.sum) ≤ 1 := Real.exp_le_one_iff.mpr (by linarith)
  have h0 : 0 < Real.exp (-ds.sum) := Real.exp_pos _
  rw [renderWeights_sum]
  refine ⟨by linarith, by linarith, by linarith, by linarith⟩

/-- C7: inserting a sample with density `0` and any color `c` at any position
`k` leaves the compositor's output unchanged: the inserted sample gets zero
weight and does not alter the transmittance of any later sample. -/
theorem render_along_ray_insert_zero_density (ds : List ℝ) (cs : List (Fin 3 → ℝ))
    (bg c : Fin 3 → ℝ) (k : ℕ) (hk : k ≤ ds.length) (hl : cs.length = ds.length) :
    render_along_ray (List.insertIdx k 0 ds) (List.insertIdx k c cs) bg
      = render_along_ray ds cs bg := by
  have hW := renderWeights_insertIdx k ds hk
  have hkW : k ≤ (renderWeights ds).length := by
    rw [renderWeights_length]
    exact hk
  have hkc : k ≤ cs.length := by
    rw [hl]
    exact hk
  have hkz : k ≤ (List.zipWith (fun w (c : Fin 3 → ℝ) => w • c)
      (renderWeights ds) cs).length := by
    rw [List.length_zipWith, renderWeights_length, hl, min_self]
    exact hk
  rw [render_along_ray, render_along_ray, hW,
    insertIdx_zipWith (fun w c => w • c) k 0 c (renderWeights ds) cs hkW hkc,
    insertIdx_sum k ((0 : ℝ) • c) _ hkz, insertIdx_sum k (0 : ℝ) _ hkW, zero_smul,
    zero_add, zero_add]

/-- C7 witness: inserting a zero-density white sample into the empty sequence
leaves the composited color unchanged. -/
theorem render_along_ray_insert_zero_density_witness :
    (0 ≤ ([] : List ℝ).length ∧ ([] : List (Fin 3 → ℝ)).length = ([] : List ℝ).length) ∧
      render_along_ray (List.insertIdx 0 0 []) (List.insertIdx 0 (fun _ => 1) [])
          (fun _ => 0)
        = render_along_ray [] [] (fun _ => 0) :=
  ⟨⟨Nat.zero_le _, rfl⟩,
    render_along_ray_insert_zero_density [] [] (fun _ => 0) (fun _ => 1) 0
      (Nat.le_refl 0) rfl⟩

/-- C3: for every batch of 6-vector rays and a background color with every
channel in `[0,1]`, every channel of every color returned by the renderer
lies in `[0,1]`: the queried density is floored at zero, the queried color is
clamped per channel, and the compositing weights sum to at most 1. -/
theorem render_colors_in_unit_interval (m : SimpleDVGO)
    (hbg : ∀ ch, 0 ≤ m.background ch ∧ m.background ch ≤ 1)
    (rays : List (Fin 6 → ℝ)) (training : Bool) (random_scalar : List ℝ) :
    ∀ color ∈ m.forward rays training random_scalar, ∀ ch,
      0 ≤ color ch ∧ color ch ≤ 1 := by
  intro color hc ch
  simp only [SimpleDVGO.forward] at hc
  obtain ⟨pts, _, rfl⟩ := List.mem_map.mp hc
  apply render_along_ray_bounds
  · intro x hx
    obtain ⟨q, _, rfl⟩ := List.mem_map.mp hx
    exact le_max_right _ _
  · intro cc hcc ch'
    obtain ⟨q, _, rfl⟩ := List.mem_map.mp hcc
    exact ⟨le_min (le_max_right _ _) zero_le_one, min_le_right _ _⟩
  · exact hbg

/-- C3 witness: the default model has a white background with channels in
`[0,1]`, so its rendered colors are in `[0,1]`. -/
theorem render_colors_in_unit_interval_witness :
    (∀ ch, 0 ≤ default_model.background ch ∧ default_model.background ch ≤ 1) ∧
      ∀ color ∈ default_model.forward [fun _ => 0] false [], ∀ ch,
        0 ≤ color ch ∧ color ch ≤ 1 := by
  have hbg : ∀ ch : Fin 3, 0 ≤ default_model.background ch ∧
      default_model.background ch ≤ 1 := by
    intro ch
    exact ⟨zero_le_one, le_refl 1⟩
  exact ⟨hbg, render_colors_in_unit_interval default_model hbg [fun _ => 0] false []⟩

/-- C8: in evaluation mode (`training = false`) no perturbation is applied:
`sample_rays` returns exactly `origin + depth * direction` for every ray and
depth (origin = first 3 ray components, direction = last 3), and two calls
with the same inputs agree regardless of the supplied random scalars. -/
theorem sample_rays_eval_mode_exact (t_values : List ℝ) (rays : List (Fin 6 → ℝ))
    (r1 r2 : List ℝ) :
    sample_rays t_values rays false r1
        = rays.map (fun r => t_values.map fun t => fun i : Fin 3 =>
            r (Fin.castAdd 3 i) + t * r (Fin.addNat i 3)) ∧
      sample_rays t_values rays false r1 = sample_rays t_values rays false r2 := by
  constructor
  · simp [sample_rays, perturbed_ts, sample_along_ray]
  · simp [sample_rays, perturbed_ts]

/-- C1 (counterexample): with 16 voxels on an axis the corner count is 17, and
for `x = 15.5` the code's high corner index is `16`, whereas the claimed
formula — clamping to `[0, n-1]` with `n` the corner count minus one — yields
`15`. -/
theorem bracket_claim_counterexample :
    (bracket ((31 : ℝ) / 2) (16 + 1)).2.1 = 16 ∧
      (bracketSpecC1 ((31 : ℝ) / 2) (16 + 1)).2.1 = 15 := by
  have hfl : ⌊(31 : ℝ) / 2⌋ = 15 := by
    rw [Int.floor_eq_iff]
    norm_num
  constructor
  · simp only [bracket, hfl]
    omega
  · simp only [bracketSpecC1, hfl]
    omega

/-- C1 (amended): in VoxelGrid trilinear evaluation each axis is bracketed
against `n = corner count = voxel count + 1`: the low corner index is
`clamp(⌊x⌋, 0, n-1)` and the high corner index is `clamp(⌊x⌋+1, 0, n-1)`,
i.e. both are clamped into the valid corner range `[0, voxel count]`, and
low ≤ high. -/
theorem bracket_clamps_to_corner_range {d : ℕ} (g : VoxelGrid d) (i : Fin 3)
    (x : ℝ) :
    (bracket x (g.shape i + 1)).1 = min (max ⌊x⌋ 0) (g.shape i : ℤ) ∧
      (bracket x (g.shape i + 1)).2.1 = min (max (⌊x⌋ + 1) 0) (g.shape i : ℤ) ∧
      0 ≤ (bracket x (g.shape i + 1)).1 ∧
      (bracket x (g.shape i + 1)).1 ≤ (g.shape i : ℤ) ∧
      0 ≤ (bracket x (g.shape i + 1)).2.1 ∧
      (bracket x (g.shape i + 1)).2.1 ≤ (g.shape i : ℤ) ∧
      (bracket x (g.shape i + 1)).1 ≤ (bracket x (g.shape i + 1)).2.1 := by
  simp only [bracket]
  push_cast
  refine ⟨by omega, by omega, by omega, by omega, by omega, by omega, by omega⟩

/-- C4: for every point whose coordinates lie strictly inside one voxel cell
(so no clamping is active), VoxelGrid evaluation equals the exact trilinear
blend of that cell's eight corner values, computed as nested lerps
`lerp(a,b,t) = a*(1-t) + b*t` first along x, then y, then z. -/
theorem voxel_forward_interior {d : ℕ} (g : VoxelGrid d) (P : Fin 3 → ℝ)
    (ix iy iz : ℕ)
    (hx1 : (ix : ℝ) < P 0) (hx2 : P 0 < (ix : ℝ) + 1) (hxs : ix < g.shape 0)
    (hy1 : (iy : ℝ) < P 1) (hy2 : P 1 < (iy : ℝ) + 1) (hys : iy < g.shape 1)
    (hz1 : (iz : ℝ) < P 2) (hz2 : P 2 < (iz : ℝ) + 1) (hzs : iz < g.shape 2) :
    g.forward P = trilinearSpec g ix iy iz (P 0 - ix) (P 1 - iy) (P 2 - iz) := by
  have hbx := bracket_interior (P 0) ix (g.shape 0) hx1 hx2 hxs
  have hby := bracket_interior (P 1) iy (g.shape 1) hy1 hy2 hys
  have hbz := bracket_interior (P 2) iz (g.shape 2) hz1 hz2 hzs
  simp only [VoxelGrid.forward, hbx, hby, hbz, trilinearSpec, lerpSpec, interpolate]
  rfl

/-- C4 witness: the midpoint of the single cell of a one-voxel grid. -/
theorem voxel_forward_interior_witness :
    (((0 : ℕ) : ℝ) < (1 / 2 : ℝ) ∧ (1 / 2 : ℝ) < ((0 : ℕ) : ℝ) + 1 ∧ (0 : ℕ) < 1) ∧
      VoxelGrid.forward (⟨fun _ => 1, fun _ _ _ _ => 0⟩ : VoxelGrid 1)
          (fun _ => (1 / 2 : ℝ))
        = trilinearSpec (⟨fun _ => 1, fun _ _ _ _ => 0⟩ : VoxelGrid 1) 0 0 0
            ((1 / 2 : ℝ) - ((0 : ℕ) : ℝ)) ((1 / 2 : ℝ) - ((0 : ℕ) : ℝ))
            ((1 / 2 : ℝ) - ((0 : ℕ) : ℝ)) :=
  ⟨⟨by norm_num, by norm_num, Nat.zero_lt_one⟩,
    voxel_forward_interior (⟨fun _ => 1, fun _ _ _ _ => 0⟩ : VoxelGrid 1)
      (fun _ => (1 / 2 : ℝ)) 0 0 0
      (by norm_num) (by norm_num) Nat.zero_lt_one
      (by norm_num) (by norm_num) Nat.zero_lt_one
      (by norm_num) (by norm_num) Nat.zero_lt_one⟩

/-- C5: for every point with a coordinate outside the grid's index range
`[0, voxel count]` on some axis, VoxelGrid evaluation equals evaluation at
the nearest boundary point on that axis (saturation to the boundary face's
value): out-of-range points yield the clamped result, never extrapolation. -/
theorem voxel_forward_clamps_outside {d : ℕ} (g : VoxelGrid d) (P : Fin 3 → ℝ)
    (i : Fin 3) (h : P i < 0 ∨ (g.shape i : ℝ) < P i) :
    g.forward P
      = g.forward (Function.update P i (min (max (P i) 0) ((g.shape i : ℝ)))) := by
  fin_cases i
  · replace h : P 0 < 0 ∨ ((g.shape 0 : ℝ)) < P 0 := h
    show g.forward P
      = g.forward (Function.update P 0 (min (max (P 0) 0) ((g.shape 0 : ℝ))))
    rcases h with h | h
    · have hclamp : min (max (P 0) 0) ((g.shape 0 : ℝ)) = 0 := by
        rw [max_eq_right h.le, min_eq_left (Nat.cast_nonneg _)]
      rw [hclamp]
      obtain ⟨h1, h2⟩ := bracket_low (P 0) (g.shape 0) h
      obtain ⟨h3, h4⟩ := bracket_at_zero (g.shape 0)
      have e0 : Function.update P 0 (0 : ℝ) 0 = 0 := by simp
      have e1 : Function.update P 0 (0 : ℝ) 1 = P 1 :=
        Function.update_noteq (by decide) _ _
      have e2 : Function.update P 0 (0 : ℝ) 2 = P 2 :=
        Function.update_noteq (by decide) _ _
      simp only [VoxelGrid.forward, e0, e1, e2, h1, h2, h3, h4, interpolate_zero,
        interpolate_self]
    · have h0 : (0 : ℝ) ≤ P 0 := le_trans (Nat.cast_nonneg _) h.le
      have hclamp : min (max (P 0) 0) ((g.shape 0 : ℝ)) = (g.shape 0 : ℝ) := by
        rw [max_eq_left h0, min_eq_right h.le]
      rw [hclamp]
      obtain ⟨h1, h2⟩ := bracket_high (P 0) (g.shape 0) h
      obtain ⟨h3, h4, h5⟩ := bracket_at_top (g.shape 0)
      have e0 : Function.update P 0 ((g.shape 0 : ℝ)) 0 = (g.shape 0 : ℝ) := by simp
      have e1 : Function.update P 0 ((g.shape 0 : ℝ)) 1 = P 1 :=
        Function.update_noteq (by decide) _ _
      have e2 : Function.update P 0 ((g.shape 0 : ℝ)) 2 = P 2 :=
        Function.update_noteq (by decide) _ _
      simp only [VoxelGrid.forward, e0, e1, e2, h1, h2, h3, h4, h5, interpolate_zero,
        interpolate_self]
  · replace h : P 1 < 0 ∨ ((g.shape 1 : ℝ)) < P 1 := h
    show g.forward P
      = g.forward (Function.update P 1 (min (max (P 1) 0) ((g.shape 1 : ℝ))))
    rcases h with h | h
    · have hclamp : min (max (P 1) 0) ((g.shape 1 : ℝ)) = 0 := by
        rw [max_eq_right h.le, min_eq_left (Nat.cast_nonneg _)]
      rw [hclamp]
      obtain ⟨h1, h2⟩ := bracket_low (P 1) (g.shape 1) h
      obtain ⟨h3, h4⟩ := bracket_at_zero (g.shape 1)
      have e0 : Function.update P 1 (0 : ℝ) 0 = P 0 :=
        Function.update_noteq (by decide) _ _
      have e1 : Function.update P 1 (0 : ℝ) 1 = 0 := by simp
      have e2 : Function.update P 1 (0 : ℝ) 2 = P 2 :=
        Function.update_noteq (by decide) _ _
      simp only [VoxelGrid.forward, e0, e1, e2, h1, h2, h3, h4, interpolate_zero,
        interpolate_self]
    · have h0 : (0 : ℝ) ≤ P 1 := le_trans (Nat.cast_nonneg _) h.le
      have hclamp : min (max (P 1) 0) ((g.shape 1 : ℝ)) = (g.shape 1 : ℝ) := by
        rw [max_eq_left h0, min_eq_right h.le]
      rw [hclamp]
      obtain ⟨h1, h2⟩ := bracket_high (P 1) (g.shape 1) h
      obtain ⟨h3, h4, h5⟩ := bracket_at_top (g.shape 1)
      have e0 : Function.update P 1 ((g.shape 1 : ℝ)) 0 = P 0 :=
        Function.update_noteq (by decide) _ _
      have e1 : Function.update P 1 ((g.shape 1 : ℝ)) 1 = (g.shape 1 : ℝ) := by simp
      have e2 : Function.update P 1 ((g.shape 1 : ℝ)) 2 = P 2 :=
        Function.update_noteq (by decide) _ _
      simp only [VoxelGrid.forward, e0, e1, e2, h1, h2, h3, h4, h5, interpolate_zero,
        interpolate_self]
  · replace h : P 2 < 0 ∨ ((g.shape 2 : ℝ)) < P 2 := h
    show g.forward P
      = g.forward (Function.update P 2 (min (max (P 2) 0) ((g.shape 2 : ℝ))))
    rcases h with h | h
    · have hclamp : min (max (P 2) 0) ((g.shape 2 : ℝ)) = 0 := by
        rw [max_eq_right h.le, min_eq_left (Nat.cast_nonneg _)]
      rw [hclamp]
      obtain ⟨h1, h2⟩ := bracket_low (P 2) (g.shape 2) h
      obtain ⟨h3, h4⟩ := bracket_at_zero (g.shape 2)
      have e0 : Function.update P 2 (0 : ℝ) 0 = P 0 :=
        Function.update_noteq (by decide) _ _
      have e1 : Function.update P 2 (0 : ℝ) 1 = P 1 :=
        Function.update_noteq (by decide) _ _
      have e2 : Function.update P 2 (0 : ℝ) 2 = 0 := by simp
      simp only [VoxelGrid.forward, e0, e1, e2, h1, h2, h3, h4, interpolate_zero,
        interpolate_self]
    · have h0 : (0 : ℝ) ≤ P 2 := le_trans (Nat.cast_nonneg _) h.le
      have hclamp : min (max (P 2) 0) ((g.shape 2 : ℝ)) = (g.shape 2 : ℝ) := by
        rw [max_eq_left h0, min_eq_right h.le]
      rw [hclamp]
      obtain ⟨h1, h2⟩ := bracket_high (P 2) (g.shape 2) h
      obtain ⟨h3, h4, h5⟩ := bracket_at_top (g.shape 2)
      have e0 : Function.update P 2 ((g.shape 2 : ℝ)) 0 = P 0 :=
        Function.update_noteq (by decide) _ _
      have e1 : Function.update P 2 ((g.shape 2 : ℝ)) 1 = P 1 :=
        Function.update_noteq (by decide) _ _
      have e2 : Function.update P 2 ((g.shape 2 : ℝ)) 2 = (g.shape 2 : ℝ) := by simp
      simp only [VoxelGrid.forward, e0, e1, e2, h1, h2, h3, h4, h5, interpolate_zero,
        interpolate_self]

/-- C5 witness: a point at `x = 2` outside a one-voxel grid evaluates as its
clamp to the boundary `x = 1`. -/
theorem voxel_forward_clamps_outside_witness :
    ((fun _ => (2 : ℝ)) 0 < 0 ∨
        (((⟨fun _ => 1, fun _ _ _ _ => 0⟩ : VoxelGrid 1).shape 0 : ℝ)) <
          (fun _ => (2 : ℝ)) 0) ∧
      VoxelGrid.forward (⟨fun _ => 1, fun _ _ _ _ => 0⟩ : VoxelGrid 1)
          (fun _ => (2 : ℝ))
        = VoxelGrid.forward (⟨fun _ => 1, fun _ _ _ _ => 0⟩ : VoxelGrid 1)
            (Function.update (fun _ => (2 : ℝ)) 0
              (min (max ((2 : ℝ)) 0) (((1 : ℕ) : ℝ)))) :=
  ⟨Or.inr (by norm_num),
    voxel_forward_clamps_outside (⟨fun _ => 1, fun _ _ _ _ => 0⟩ : VoxelGrid 1)
      (fun _ => (2 : ℝ)) 0 (Or.inr (by norm_num))⟩

/-- C9: the orthographic ray factory fails with an `InvalidFace` error if and
only if the face identifier is not one of `"x"`, `"-x"`, `"y"`, `"-y"`,
`"z"`, `"-z"`; for each of the six valid identifiers it returns a ray grid
without error. -/
theorem create_rays_invalid_face_iff (config : Config) (face : String) (off : ℝ) :
    ((create_rays config face off = Except.error RenderError.invalidFace) ↔
        face ∉ (["x", "-x", "y", "-y", "z", "-z"] : List String)) ∧
      ((∃ grid, create_rays config face off = Except.ok grid) ↔
        face ∈ (["x", "-x", "y", "-y", "z", "-z"] : List String)) := by
  simp only [create_rays]
  split_ifs with h1 h2 h3 h4 h5 h6
  · subst h1
    simp
  · subst h2
    simp
  · subst h3
    simp
  · subst h4
    simp
  · subst h5
    simp
  · subst h6
    simp
  · simp [h1, h2, h3, h4, h5, h6]

/-- C6: for the default renderer's configured depth midpoints (near = 0.5,
far = 3.5, 64 samples) and every realization of the per-depth-slot jitter
with `|jitter| ≤ 1/(2n)` (`n` = number of depths), the perturbed depth
sequence remains strictly increasing, so samples stay front-to-back with no
re-sorting. -/
theorem default_perturbed_depths_sorted
    (rgb_values : ℤ → ℤ → ℤ → Fin 3 → ℝ)
    (density_values : ℤ → ℤ → ℤ → Fin 1 → ℝ) (js : List ℝ)
    (hlen : js.length
      = (SimpleDVGO.init default_config rgb_values density_values).t_values.length)
    (hjs : ∀ j ∈ js, |j| ≤ 1 / (2 *
      ((SimpleDVGO.init default_config rgb_values density_values).t_values.length :
        ℝ))) :
    List.Pairwise (· < ·)
      (perturbed_ts
        (SimpleDVGO.init default_config rgb_values density_values).t_values
        true js) := by
  have htv : (SimpleDVGO.init default_config rgb_values density_values).t_values
      = compute_t_values 0.5 3.5 64 := rfl
  rw [htv] at hlen hjs ⊢
  have hL : (compute_t_values 0.5 3.5 64).length = 64 := compute_t_values_length _ _ _
  rw [hL] at hlen hjs
  have hp : perturbed_ts (compute_t_values 0.5 3.5 64) true js
      = List.zipWith (fun t r => t + r) (compute_t_values 0.5 3.5 64) js := by
    simp [perturbed_ts]
  rw [hp, ← List.chain'_iff_pairwise, List.chain'_iff_get]
  intro i hi
  rw [List.length_zipWith, hL, hlen, min_self] at hi
  simp only [List.get_eq_getElem, List.getElem_zipWith]
  have hb1 : i < (compute_t_values 0.5 3.5 64).length := by
    rw [hL]
    omega
  have hb2 : i + 1 < (compute_t_values 0.5 3.5 64).length := by
    rw [hL]
    omega
  rw [compute_t_values_getElem 0.5 3.5 64 i hb1,
    compute_t_values_getElem 0.5 3.5 64 (i + 1) hb2]
  have hji : i < js.length := by omega
  have hji1 : i + 1 < js.length := by omega
  have hj1 := hjs js[i] (List.getElem_mem _)
  have hj2 := hjs js[i + 1] (List.getElem_mem _)
  rw [abs_le] at hj1 hj2
  push_cast
  norm_num at hj1 hj2 ⊢
  linarith [hj1.1, hj1.2, hj2.1, hj2.2]

/-- C6 witness: the all-zero jitter realization keeps the default depth
midpoints strictly increasing. -/
theorem default_perturbed_depths_sorted_witness :
    (List.replicate default_model.t_values.length (0 : ℝ)).length
        = default_model.t_values.length ∧
      (∀ j ∈ List.replicate default_model.t_values.length (0 : ℝ),
        |j| ≤ 1 / (2 * (default_model.t_values.length : ℝ))) ∧
      List.Pairwise (· < ·)
        (perturbed_ts default_model.t_values true
          (List.replicate default_model.t_values.length (0 : ℝ))) := by
  have hjs : ∀ j ∈ List.replicate default_model.t_values.length (0 : ℝ),
      |j| ≤ 1 / (2 * (default_model.t_values.length : ℝ)) := by
    intro j hj
    rw [List.eq_of_mem_replicate hj, abs_zero]
    positivity
  exact ⟨List.length_replicate _ _, hjs,
    default_perturbed_depths_sorted zero3 zero1 _ (List.length_replicate _ _) hjs⟩

end

end Nerf
